import Mathlib

/-!
Shallow embedding of `Andy/wof_solver3.py`, the Wheel-of-Fortune solver.

Strings are modelled as `List Char`; Python sets are modelled as lists used
only through membership; `collections.Counter` is modelled as an insertion-
ordered association list `List (Char × Int)`.  The regular expressions built
by `pattern_to_regex` are concatenations of single-character items anchored
with `^...$`; we embed the composition "pattern string → compiled matcher" as
a list of character items.  Targets are assumed newline-free (`load_list`
strips every line), so the trailing `$` is modelled as exact end of string.
Floating point weights appear only as the default `1.0` and are immediately
truncated by `int(...)` in the source, so weights are embedded as integers.
-/

namespace Wof

/-- `string.ascii_uppercase` from the Python standard library. -/
def asciiUppercase : List Char :=
  ['A', 'B', 'C', 'D', 'E', 'F', 'G', 'H', 'I', 'J', 'K', 'L', 'M',
   'N', 'O', 'P', 'Q', 'R', 'S', 'T', 'U', 'V', 'W', 'X', 'Y', 'Z']

/-- The membership test `ch in string.ascii_uppercase` used throughout the
source. -/
def isUpperCh (c : Char) : Bool := decide (c ∈ asciiUppercase)

/-- Python `str.upper()` on a single ASCII character (all inputs in this
program are ASCII). -/
def upperChar (c : Char) : Char :=
  if 97 ≤ c.toNat ∧ c.toNat ≤ 122 then Char.ofNat (c.toNat - 32) else c

/-- `extract_attempted_letters(pattern, attempted)`: the union (as a list used
for membership) of the uppercase letters of `pattern.upper()` and the
uppercased explicitly supplied letters.  `None` and the empty list are both
falsy in Python, hence both give no explicit contribution. -/
def extract_attempted_letters (pattern : List Char) (attempted : Option (List Char)) :
    List Char :=
  ((pattern.map upperChar).filter isUpperCh) ++
    (match attempted with
     | none => []
     | some l => l.map upperChar)

/-- One single-character item of the regex built by `pattern_to_regex`. -/
inductive RxItem where
  /-- the class `[A-Z]` produced for `_` when the forbidden set is empty -/
  | classUpper : RxItem
  /-- the class `[A-Z^F...]` produced for `_` when the forbidden set is
  non-empty: the caret is not leading, so the class means
  "uppercase letter, or a literal caret, or a forbidden letter" -/
  | classUpperCaretForb : List Char → RxItem
  /-- a character inserted verbatim that the regex engine reads as the
  wildcard `.` -/
  | anyChar : RxItem
  /-- a character inserted verbatim with no special regex meaning -/
  | lit : Char → RxItem
deriving DecidableEq

/-- The item `pattern_to_regex` emits for one pattern character, as interpreted
by `re`.  Characters other than `_` are appended verbatim to the regex string;
among those, `.` is the only regex metacharacter exercised by this program's
claims, so it is the only one given its special reading (patterns containing
other metacharacters fall outside this per-item model). -/
def charToItem (forbidden_letters : List Char) (ch : Char) : RxItem :=
  if ch = '_' then
    if forbidden_letters ≠ [] then .classUpperCaretForb forbidden_letters
    else .classUpper
  else if ch = '.' then .anyChar
  else .lit ch

/-- The characters that carry a special meaning in a Python regular
expression when inserted verbatim; every other character is a literal that
matches only itself. -/
def regexSpecialChars : List Char :=
  ['.', '^', '$', '*', '+', '?', '[', ']', '\\', '|', '(', ')',
   Char.ofNat 123, Char.ofNat 125]

/-- `pattern_to_regex(pattern, forbidden_letters)` composed with `re.compile`:
the anchored sequence of single-character items. -/
def pattern_to_regex (forbidden_letters : List Char) (pattern : List Char) :
    List RxItem :=
  pattern.map (charToItem forbidden_letters)

/-- Whether one regex item accepts one target character. -/
def itemMatches : RxItem → Char → Bool
  | .classUpper, c => isUpperCh c
  | .classUpperCaretForb forb, c => isUpperCh c || c = '^' || decide (c ∈ forb)
  | .anyChar, c => c ≠ '\n'
  | .lit p, c => p = c

/-- `rx.match(s)` for the anchored single-character-item regexes of this
program: the target has the same length and every item accepts the
corresponding character. -/
def rxMatch : List RxItem → List Char → Bool
  | [], [] => true
  | it :: its, c :: cs => itemMatches it c && rxMatch its cs
  | _, _ => false

/-- The explicit forbidden-letter loop shared by `phrase_matches` and
`match_words`: over `zip(pattern, target)` (which stops at the shorter list),
no position may pair a pattern underscore with a forbidden target letter. -/
def forbOkZip : List Char → List Char → List Char → Bool
  | p :: ps, c :: cs, forbidden =>
      !(p = '_' && decide (c ∈ forbidden)) && forbOkZip ps cs forbidden
  | _, _, _ => true

/-- `phrase_matches(pattern, phrases, forbidden_letters)`. -/
def phrase_matches (pattern : List Char) (phrases : List (List Char))
    (forbidden : List Char) : List (List Char) :=
  phrases.filter fun p =>
    rxMatch (pattern_to_regex [] pattern) p && forbOkZip pattern p forbidden

/-- `match_words(words, pattern_word, forbidden_letters)`. -/
def match_words (words : List (List Char)) (pattern_word : List Char)
    (forbidden : List Char) : List (List Char) :=
  words.filter fun w =>
    decide (w.length = pattern_word.length) &&
      rxMatch (pattern_to_regex [] pattern_word) w &&
      forbOkZip pattern_word w forbidden

/-- Python `str.split()` (with the patterns at hand the only whitespace is the
space character): maximal space-free runs, empties dropped.  `cur` is the
reversed current word accumulator. -/
def splitAux (cur : List Char) : List Char → List (List Char)
  | [] => if cur = [] then [] else [cur.reverse]
  | c :: rest =>
      if c = ' ' then
        if cur = [] then splitAux [] rest else cur.reverse :: splitAux [] rest
      else splitAux (c :: cur) rest

/-- `pattern.split()`. -/
def pySplit (s : List Char) : List (List Char) := splitAux [] s

/-- `" ".join(ws)`. -/
def joinSpace : List (List Char) → List Char
  | [] => []
  | [w] => w
  | w :: ws => w ++ ' ' :: joinSpace ws

/-- `itertools.product(*lists)`, rightmost factor varying fastest. -/
def pyProduct : List (List (List Char)) → List (List (List Char))
  | [] => [[]]
  | l :: ls => l.flatMap fun x => (pyProduct ls).map (x :: ·)

/-- The `for part in parts` loop of `solve_pattern`: `none` models the early
`return []` fired by the first segment with no matching words. -/
def collectCandidateLists (words : List (List Char)) (forbidden : List Char) :
    List (List Char) → Option (List (List (List Char)))
  | [] => some []
  | part :: rest =>
      let ms := match_words words part forbidden
      if ms = [] then none
      else (collectCandidateLists words forbidden rest).map (ms :: ·)

/-- `solve_pattern(pattern, words, forbidden_letters)`. -/
def solve_pattern (pattern : List Char) (words : List (List Char))
    (forbidden : List Char) : List (List Char) :=
  match collectCandidateLists words forbidden (pySplit pattern) with
  | none => []
  | some lists => (pyProduct lists).map joinSpace

/-- Stable insertion step for `insSortBy`: `x` is placed before the first
element `y` with `le x y`; Python's stable `sorted` places an earlier element
before later ones that compare equal, which this reproduces. -/
def insOne (le : α → α → Bool) (x : α) : List α → List α
  | [] => [x]
  | y :: ys => if le x y then x :: y :: ys else y :: insOne le x ys

/-- Stable insertion sort, ascending with respect to `le`. -/
def insSortBy (le : α → α → Bool) : List α → List α
  | [] => []
  | x :: xs => insOne le x (insSortBy le xs)

/-- Python string `<=`: lexicographic on code points. -/
def strLe : List Char → List Char → Bool
  | [], _ => true
  | _ :: _, [] => false
  | x :: xs, y :: ys =>
      if x.toNat < y.toNat then true
      else if y.toNat < x.toNat then false
      else strLe xs ys

/-- Descending-by-second-component comparison used by Python's
`sort(key=lambda x: x[1], reverse=True)` and `Counter.most_common()`. -/
def sndGe (a b : α × Int) : Bool := b.2 ≤ a.2

/-- `sorted(all_solutions)` applied to `set(...)`: deduplicate, then sort
ascending lexicographically. -/
def sortedStrings (l : List (List Char)) : List (List Char) :=
  insSortBy strLe l.dedup

/-- The reference string `"ETAOINSHRDLU"` whose `Counter` is the per-letter
weight table of `rank_solutions`. -/
def etaoin : List Char := ['E', 'T', 'A', 'O', 'I', 'N', 'S', 'H', 'R', 'D', 'L', 'U']

/-- The score `rank_solutions` assigns to one candidate: per character the
count of that character in `"ETAOINSHRDLU"`, plus 100 when `phrase_set` is
truthy and contains the candidate. -/
def scoreOf (phrase_set : List (List Char)) (s : List Char) : Int :=
  (s.map fun ch => (etaoin.count ch : Int)).sum +
    (if phrase_set ≠ [] ∧ s ∈ phrase_set then 100 else 0)

/-- `rank_solutions(solutions, phrase_set)`. -/
def rank_solutions (solutions : List (List Char)) (phrase_set : List (List Char)) :
    List (List Char) :=
  ((insSortBy sndGe (solutions.map fun s => (s, scoreOf phrase_set s))).map Prod.fst)

/-- `counts[ch] += v` on a `Counter` modelled as an insertion-ordered
association list: update in place if the key exists, else append with the
implicit starting value 0. -/
def cntAdd (counts : List (Char × Int)) (ch : Char) (v : Int) : List (Char × Int) :=
  if counts.any (fun p => p.1 = ch) then
    counts.map fun p => if p.1 = ch then (p.1, p.2 + v) else p
  else counts ++ [(ch, v)]

/-- The body of the per-character loop of `recommend_next_letter`. -/
def recommendStepChar (attempted : List Char) (phrase_set : List (List Char))
    (s : List Char) (w : Int) (counts : List (Char × Int)) (ch : Char) :
    List (Char × Int) :=
  if isUpperCh ch && !(decide (ch ∈ attempted)) then
    let counts := cntAdd counts ch w
    if decide (s ∈ phrase_set) then cntAdd counts ch (w * 10) else counts
  else counts

/-- The `for s, w in zip(solutions, weights)` loop of `recommend_next_letter`,
accumulating letter credits into the counter. -/
def baseCounts (attempted : List Char) (phrase_set : List (List Char))
    (pairs : List (List Char × Int)) : List (Char × Int) :=
  pairs.foldl
    (fun counts sw => sw.1.foldl (recommendStepChar attempted phrase_set sw.1 sw.2) counts)
    []

/-- One iteration of the final loop of `recommend_next_letter`: give `-1` to an
unattempted letter that never received any credit. -/
def penStep (attempted : List Char) (counts : List (Char × Int)) (ch : Char) :
    List (Char × Int) :=
  if !(decide (ch ∈ attempted)) && !(counts.any fun p => p.1 = ch) then
    cntAdd counts ch (-1)
  else counts

/-- The `for ch in "ABCDEFGHIJKLMNOPQRSTUVWXYZ"` penalty loop. -/
def penalize (attempted : List Char) (counts : List (Char × Int)) :
    List (Char × Int) :=
  asciiUppercase.foldl (penStep attempted) counts

/-- `recommend_next_letter(solutions, attempted, weights, phrase_set)`.
`Counter.most_common()` is `sorted(items, key=value, reverse=True)`, a stable
descending sort on the insertion-ordered entries. -/
def recommend_next_letter (solutions : List (List Char)) (attempted : List Char)
    (weights : Option (List Int)) (phrase_set : List (List Char)) :
    List (Char × Int) :=
  insSortBy sndGe
    (penalize attempted
      (baseCounts attempted phrase_set
        (solutions.zip (weights.getD (List.replicate solutions.length 1)))))

/-- The forbidden set computed inside `wof_solver`: uppercase letters of the
pattern, union the attempted set. -/
def forbiddenOf (pattern : List Char) (attempted : List Char) : List Char :=
  pattern.filter isUpperCh ++ attempted

/-- The result dictionary of `wof_solver`. -/
structure SolverResult where
  solutions : List (List Char)
  ranked : List (List Char)
  next_letter : List (Char × Int)
deriving DecidableEq

/-- `wof_solver(pattern, attempted_letters)`, with the two corpora (the lists
`load_list` would produce) passed explicitly in place of the file paths. -/
def wof_solver (pattern0 : List Char) (attempted_letters : Option (List Char))
    (words phrases : List (List Char)) : SolverResult :=
  let pattern := pattern0.map upperChar
  let attempted := extract_attempted_letters pattern attempted_letters
  let phrase_set := phrases
  let forbidden := forbiddenOf pattern attempted
  let all_solutions :=
    sortedStrings (phrase_matches pattern phrases forbidden ++
      solve_pattern pattern words forbidden)
  if all_solutions = [] then
    ⟨[], [], recommend_next_letter [] attempted none phrase_set⟩
  else
    ⟨all_solutions, rank_solutions all_solutions phrase_set,
      recommend_next_letter (rank_solutions all_solutions phrase_set) attempted none
        phrase_set⟩

/-- The per-cell guarantee of a generated candidate against the pattern: a
fixed cell is reproduced verbatim, an originally-unknown cell holds an
uppercase letter outside the forbidden set. -/
def cellSpec (forbidden : List Char) (pc cc : Char) : Prop :=
  (pc ≠ '_' → cc = pc) ∧ (pc = '_' → isUpperCh cc = true ∧ cc ∉ forbidden)

/-- The value a `Counter` (association list) holds for a key, with the implicit
default 0. -/
def cntGet : List (Char × Int) → Char → Int
  | [], _ => 0
  | p :: rest, ch => if p.1 = ch then p.2 else cntGet rest ch

/-- The total credit `recommend_next_letter` accumulates for letter `ch` under
the default weight 1 per candidate: each occurrence of `ch` in a candidate is
worth 1, or 11 when the candidate is an exact phrase-set member. -/
def letterCredit (phrase_set : List (List Char)) (solutions : List (List Char))
    (ch : Char) : Int :=
  (solutions.map fun s => (s.count ch : Int) * (if s ∈ phrase_set then 11 else 1)).sum

/-- A valid pattern in the sense of the specification: a non-empty sequence of
non-empty word segments, each consisting of uppercase letters and placeholder
underscores, joined by single spaces. -/
def ValidPattern (P : List Char) : Prop :=
  ∃ segs : List (List Char), segs ≠ [] ∧
    (∀ seg ∈ segs, seg ≠ [] ∧ ∀ c ∈ seg, isUpperCh c = true ∨ c = '_') ∧
    P = joinSpace segs

/-! ### Character facts -/

lemma mem_asciiUppercase_of_isUpper {c : Char} (h : isUpperCh c = true) :
    c ∈ asciiUppercase := of_decide_eq_true h

lemma isUpper_ne_underscore {c : Char} (h : isUpperCh c = true) : c ≠ '_' := by
  intro e; subst e; exact absurd h (by decide)

lemma isUpper_ne_dot {c : Char} (h : isUpperCh c = true) : c ≠ '.' := by
  intro e; subst e; exact absurd h (by decide)

lemma isUpper_ne_space {c : Char} (h : isUpperCh c = true) : c ≠ ' ' := by
  intro e; subst e; exact absurd h (by decide)

lemma upperChar_of_isUpper {c : Char} (h : isUpperCh c = true) : upperChar c = c := by
  have hm := mem_asciiUppercase_of_isUpper h
  fin_cases hm <;> decide

/-- `str.upper()` fixes every character of a valid pattern. -/
lemma upperChar_valid_id {c : Char} (h : isUpperCh c = true ∨ c = '_' ∨ c = ' ') :
    upperChar c = c := by
  rcases h with h | h | h
  · exact upperChar_of_isUpper h
  · subst h; decide
  · subst h; decide

lemma upperChar_ne_space {c : Char} (h : c ≠ ' ') : upperChar c ≠ ' ' := by
  unfold upperChar
  split
  · next hr =>
      obtain ⟨h1, h2⟩ := hr
      set n := c.toNat with hn
      interval_cases n <;> decide
  · exact h

/-! ### Stable insertion sort -/

lemma insOne_perm (le : α → α → Bool) (x : α) (l : List α) :
    List.Perm (insOne le x l) (x :: l) := by
  induction l with
  | nil => simp [insOne]
  | cons y ys ih =>
      rw [insOne]
      split
      · exact List.Perm.refl _
      · exact (ih.cons y).trans (List.Perm.swap x y ys)

lemma insSortBy_perm (le : α → α → Bool) (l : List α) :
    List.Perm (insSortBy le l) l := by
  induction l with
  | nil => exact List.Perm.refl _
  | cons x xs ih => exact (insOne_perm le x (insSortBy le xs)).trans (ih.cons x)

lemma insOne_head_cases (le : α → α → Bool) (x : α) (l : List α) :
    (insOne le x l).head? = some x ∨ (insOne le x l).head? = l.head? := by
  cases l with
  | nil => left; rfl
  | cons y ys =>
      rw [insOne]
      split
      · left; rfl
      · right; rfl

lemma insOne_chain {le : α → α → Bool}
    (htot : ∀ a b, le a b = true ∨ le b a = true) (x : α) {l : List α}
    (h : l.Chain' fun a b => le a b = true) :
    (insOne le x l).Chain' fun a b => le a b = true := by
  induction l with
  | nil => simp [insOne]
  | cons y ys ih =>
      rw [insOne]
      split
      · next hle => exact List.chain'_cons.mpr ⟨hle, h⟩
      · next hnle =>
          have hy : ∀ z ∈ ys.head?, le y z = true :=
            (List.chain'_cons'.mp h).1
          have htail : ys.Chain' fun a b => le a b = true :=
            (List.chain'_cons'.mp h).2
          refine List.chain'_cons'.mpr ⟨?_, ih htail⟩
          intro z hz
          rcases insOne_head_cases le x ys with hc | hc
          · rw [hc] at hz
            have hxz : x = z := by simpa using hz
            subst hxz
            rcases htot x y with h' | h'
            · exact absurd h' hnle
            · exact h'
          · rw [hc] at hz
            exact hy z hz

lemma insSortBy_chain {le : α → α → Bool}
    (htot : ∀ a b, le a b = true ∨ le b a = true) (l : List α) :
    (insSortBy le l).Chain' fun a b => le a b = true := by
  induction l with
  | nil => simp [insSortBy]
  | cons x xs ih => exact insOne_chain htot x ih

lemma strLe_total : ∀ a b : List Char, strLe a b = true ∨ strLe b a = true := by
  intro a
  induction a with
  | nil => intro b; left; cases b <;> rfl
  | cons x xs ih =>
      intro b
      cases b with
      | nil => right; rfl
      | cons y ys =>
          rcases Nat.lt_trichotomy x.toNat y.toNat with h | h | h
          · left; simp [strLe, h]
          · have h' : ¬ x.toNat < y.toNat := by omega
            have h'' : ¬ y.toNat < x.toNat := by omega
            rcases ih ys with hr | hr
            · left; simp [strLe, h', h'', hr]
            · right; simp [strLe, h', h'', hr]
          · right; simp [strLe, h, Nat.lt_asymm h]

lemma sndGe_total : ∀ a b : α × Int, sndGe a b = true ∨ sndGe b a = true := by
  intro a b
  rcases Int.le_total a.2 b.2 with h | h
  · right; simpa [sndGe] using h
  · left; simpa [sndGe] using h

lemma mem_sortedStrings {a : List Char} {l : List (List Char)} :
    a ∈ sortedStrings l ↔ a ∈ l := by
  unfold sortedStrings
  rw [(insSortBy_perm strLe l.dedup).mem_iff, List.mem_dedup]

lemma sortedStrings_nodup (l : List (List Char)) : (sortedStrings l).Nodup :=
  (List.Perm.nodup_iff (insSortBy_perm strLe l.dedup)).mpr l.nodup_dedup

lemma sortedStrings_chain (l : List (List Char)) :
    (sortedStrings l).Chain' fun a b => strLe a b = true :=
  insSortBy_chain strLe_total l.dedup

/-! ### Regex semantics and per-cell guarantees -/

lemma rxMatch_map_iff {f : Char → RxItem} :
    ∀ {P t : List Char},
      (rxMatch (P.map f) t = true ↔
        List.Forall₂ (fun pc cc => itemMatches (f pc) cc = true) P t)
  | [], [] => by simp [rxMatch]
  | [], _ :: _ => by simp [rxMatch]
  | _ :: _, [] => by simp [rxMatch]
  | p :: P, c :: t => by
      rw [List.map_cons]
      show (itemMatches (f p) c && rxMatch (P.map f) t) = true ↔ _
      rw [Bool.and_eq_true, List.forall₂_cons, rxMatch_map_iff]

lemma forbOkZip_iff {forb : List Char} : ∀ {P t : List Char},
    P.length = t.length →
    (forbOkZip P t forb = true ↔
      List.Forall₂ (fun pc cc => ¬(pc = '_' ∧ cc ∈ forb)) P t) := by
  intro P
  induction P with
  | nil =>
      intro t h
      cases t with
      | nil => simp [forbOkZip]
      | cons c t => simp at h
  | cons p P ih =>
      intro t h
      cases t with
      | nil => simp at h
      | cons c t =>
          have h' : P.length = t.length := by simpa using h
          rw [forbOkZip, Bool.and_eq_true, List.forall₂_cons, ih h']
          simp only [Bool.not_eq_true', Bool.and_eq_false_iff, decide_eq_false_iff_not,
            decide_eq_true_eq, and_congr_left_iff]
          intro _
          constructor
          · rintro (h1 | h1) ⟨h2, h3⟩
            · exact h1 h2
            · exact h1 h3
          · intro h1
            by_cases hp : p = '_'
            · right; intro hc; exact h1 ⟨hp, hc⟩
            · left; exact hp

lemma forall₂_and_intro {R S : α → β → Prop} :
    ∀ {l₁ : List α} {l₂ : List β}, List.Forall₂ R l₁ l₂ → List.Forall₂ S l₁ l₂ →
      List.Forall₂ (fun a b => R a b ∧ S a b) l₁ l₂
  | _, _, List.Forall₂.nil, _ => List.Forall₂.nil
  | _, _, List.Forall₂.cons h₁ t₁, h₂ => by
      cases h₂ with
      | cons h₂h h₂t => exact List.Forall₂.cons ⟨h₁, h₂h⟩ (forall₂_and_intro t₁ h₂t)

/-- A target accepted by the plain compiled pattern (`forbidden=None`) and by
the explicit forbidden-letter loop satisfies the per-cell guarantee, provided
the pattern consists of letters, underscores and spaces. -/
lemma cells_of_match {forb : List Char} {P t : List Char}
    (hP : ∀ pc ∈ P, isUpperCh pc = true ∨ pc = '_' ∨ pc = ' ')
    (hrx : rxMatch (pattern_to_regex [] P) t = true)
    (hforb : forbOkZip P t forb = true) :
    List.Forall₂ (cellSpec forb) P t := by
  have hitems := rxMatch_map_iff.mp hrx
  have hlen : P.length = t.length := hitems.length_eq
  have hzip := (forbOkZip_iff hlen).mp hforb
  have hcomb := (List.forall₂_and_left P t).mpr ⟨hP, forall₂_and_intro hitems hzip⟩
  refine hcomb.imp ?_
  rintro pc cc ⟨hvalid, hitem, hnf⟩
  rcases hvalid with hu | h_ | hsp
  · have hne : pc ≠ '_' := isUpper_ne_underscore hu
    have hnd : pc ≠ '.' := isUpper_ne_dot hu
    have : itemMatches (RxItem.lit pc) cc = true := by
      simpa [charToItem, pattern_to_regex, hne, hnd] using hitem
    have hcc : pc = cc := by simpa [itemMatches] using this
    exact ⟨fun _ => hcc.symm, fun h => absurd h hne⟩
  · subst h_
    have : itemMatches RxItem.classUpper cc = true := by
      simpa [charToItem] using hitem
    have hup : isUpperCh cc = true := by simpa [itemMatches] using this
    exact ⟨fun h => absurd rfl h, fun _ => ⟨hup, fun hmem => hnf ⟨rfl, hmem⟩⟩⟩
  · subst hsp
    have : itemMatches (RxItem.lit ' ') cc = true := by
      simpa [charToItem] using hitem
    have hcc : cc = ' ' := by simpa [itemMatches, eq_comm] using this
    exact ⟨fun _ => hcc, fun h => by simp at h⟩

lemma mem_phrase_matches {pattern : List Char} {phrases : List (List Char)}
    {forb : List Char} {p : List Char} :
    p ∈ phrase_matches pattern phrases forb ↔
      p ∈ phrases ∧ rxMatch (pattern_to_regex [] pattern) p = true ∧
        forbOkZip pattern p forb = true := by
  simp [phrase_matches, List.mem_filter, Bool.and_eq_true, and_assoc]

lemma mem_match_words {words : List (List Char)} {pw : List Char}
    {forb : List Char} {w : List Char} :
    w ∈ match_words words pw forb ↔
      w ∈ words ∧ w.length = pw.length ∧
        rxMatch (pattern_to_regex [] pw) w = true ∧ forbOkZip pw w forb = true := by
  simp [match_words, List.mem_filter, Bool.and_eq_true, and_assoc]

/-! ### Splitting and joining words -/

lemma joinSpace_cons_cons (w w₂ : List Char) (ws : List (List Char)) :
    joinSpace (w :: w₂ :: ws) = w ++ ' ' :: joinSpace (w₂ :: ws) := rfl

lemma splitAux_shape : ∀ {s₁ s₂ : List Char},
    List.Forall₂ (fun a b => (a = ' ') ↔ (b = ' ')) s₁ s₂ →
    ∀ cur₁ cur₂ : List Char, cur₁.length = cur₂.length →
    (splitAux cur₁ s₁).map List.length = (splitAux cur₂ s₂).map List.length := by
  intro s₁ s₂ h
  induction h with
  | nil =>
      intro cur₁ cur₂ hc
      by_cases h1 : cur₁ = []
      · have h2 : cur₂ = [] := by
          subst h1; exact List.length_eq_zero.mp (hc.symm.trans rfl)
        simp [splitAux, h1, h2]
      · have h2 : cur₂ ≠ [] := by
          intro h2; apply h1
          exact List.length_eq_zero.mp (hc.trans (by simp [h2]))
        simp [splitAux, h1, h2, hc]
  | @cons x y s₁ s₂ hxy htail ih =>
      intro cur₁ cur₂ hc
      by_cases hx : x = ' '
      · have hy : y = ' ' := hxy.mp hx
        by_cases h1 : cur₁ = []
        · have h2 : cur₂ = [] := by
            subst h1; exact List.length_eq_zero.mp (hc.symm.trans rfl)
          simp only [splitAux, hx, hy, h1, h2, if_true, reduceIte]
          exact ih [] [] rfl
        · have h2 : cur₂ ≠ [] := by
            intro h2; apply h1
            exact List.length_eq_zero.mp (hc.trans (by simp [h2]))
          simp only [splitAux, hx, hy, h1, h2, if_false, reduceIte, List.map_cons]
          rw [List.length_reverse, List.length_reverse, hc]
          exact congrArg _ (ih [] [] rfl)
      · have hy : y ≠ ' ' := fun h => hx (hxy.mpr h)
        simp only [splitAux, hx, hy, if_false, reduceIte]
        exact ih (x :: cur₁) (y :: cur₂) (by simp [hc])

lemma splitAux_word : ∀ (seg : List Char), (∀ c ∈ seg, c ≠ ' ') →
    ∀ (cur rest : List Char),
      splitAux cur (seg ++ rest) = splitAux (seg.reverse ++ cur) rest := by
  intro seg
  induction seg with
  | nil => intro _ cur rest; simp
  | cons c cs ih =>
      intro h cur rest
      have hc : c ≠ ' ' := h c (List.mem_cons_self c cs)
      rw [List.cons_append, splitAux, if_neg hc,
        ih (fun x hx => h x (List.mem_cons_of_mem c hx)) (c :: cur) rest]
      simp

lemma pySplit_joinSpace : ∀ (segs : List (List Char)), segs ≠ [] →
    (∀ seg ∈ segs, seg ≠ [] ∧ ∀ c ∈ seg, c ≠ ' ') →
    pySplit (joinSpace segs) = segs := by
  intro segs
  induction segs with
  | nil => intro h; exact absurd rfl h
  | cons s rest ih =>
      intro _ hval
      obtain ⟨hs, hsc⟩ := hval s (List.mem_cons_self s rest)
      cases rest with
      | nil =>
          show splitAux [] (joinSpace [s]) = [s]
          rw [joinSpace, ← List.append_nil s, splitAux_word s hsc [] []]
          rw [List.append_nil, List.append_nil, splitAux,
            if_neg (by simpa using hs), List.reverse_reverse]
      | cons s₂ rest₂ =>
          show splitAux [] (joinSpace (s :: s₂ :: rest₂)) = s :: s₂ :: rest₂
          rw [joinSpace_cons_cons,
            splitAux_word s hsc [] (' ' :: joinSpace (s₂ :: rest₂))]
          rw [List.append_nil, splitAux, if_pos rfl,
            if_neg (by simpa using hs), List.reverse_reverse]
          exact congrArg _ (ih (by simp)
            (fun seg hseg => hval seg (List.mem_cons_of_mem s hseg)))

lemma mem_joinSpace {c : Char} : ∀ {segs : List (List Char)},
    c ∈ joinSpace segs → c = ' ' ∨ ∃ seg ∈ segs, c ∈ seg := by
  intro segs
  induction segs with
  | nil => intro h; simp [joinSpace] at h
  | cons s rest ih =>
      intro h
      cases rest with
      | nil =>
          right; exact ⟨s, List.mem_cons_self s [], by simpa [joinSpace] using h⟩
      | cons s₂ rest₂ =>
          rw [joinSpace_cons_cons] at h
          rcases List.mem_append.mp h with h | h
          · right; exact ⟨s, List.mem_cons_self _ _, h⟩
          · rcases List.mem_cons.mp h with h | h
            · left; exact h
            · rcases ih h with h | ⟨seg, hseg, hc⟩
              · left; exact h
              · right; exact ⟨seg, List.mem_cons_of_mem s hseg, hc⟩

lemma joinSpace_forall₂ {R : Char → Char → Prop} (hsp : R ' ' ' ') :
    ∀ {l₁ l₂ : List (List Char)}, List.Forall₂ (List.Forall₂ R) l₁ l₂ →
      List.Forall₂ R (joinSpace l₁) (joinSpace l₂) := by
  intro l₁ l₂ h
  induction h with
  | nil => exact List.Forall₂.nil
  | @cons a b tl₁ tl₂ hseg htail ih =>
      cases htail with
      | nil => simpa [joinSpace] using hseg
      | @cons a₂ b₂ tl₁' tl₂' hseg₂ htail₂ =>
          show List.Forall₂ R (a ++ ' ' :: joinSpace (a₂ :: tl₁'))
            (b ++ ' ' :: joinSpace (b₂ :: tl₂'))
          exact List.rel_append hseg (List.Forall₂.cons hsp ih)

/-! ### Cartesian product and the per-segment loop -/

lemma mem_pyProduct : ∀ {ls : List (List (List Char))} {ws : List (List Char)},
    ws ∈ pyProduct ls ↔ List.Forall₂ (fun w l => w ∈ l) ws ls := by
  intro ls
  induction ls with
  | nil =>
      intro ws
      simp [pyProduct, List.forall₂_nil_right_iff]
  | cons l ls ih =>
      intro ws
      rw [pyProduct]
      simp only [List.mem_flatMap, List.mem_map]
      constructor
      · rintro ⟨x, hx, t, ht, rfl⟩
        exact List.Forall₂.cons hx (ih.mp ht)
      · intro h
        cases h with
        | cons hw ht => exact ⟨_, hw, _, ih.mpr ht, rfl⟩

lemma collect_eq_some {words : List (List Char)} {forb : List Char} :
    ∀ {parts : List (List Char)} {lists : List (List (List Char))},
      collectCandidateLists words forb parts = some lists →
      List.Forall₂ (fun part l => l = match_words words part forb) parts lists := by
  intro parts
  induction parts with
  | nil =>
      intro lists h
      obtain rfl : lists = [] := by simpa [collectCandidateLists] using h.symm
      exact List.Forall₂.nil
  | cons part rest ih =>
      intro lists h
      rw [collectCandidateLists] at h
      by_cases hm : match_words words part forb = []
      · simp [hm] at h
      · simp only [hm, if_neg, reduceIte, Option.map_eq_some'] at h
        obtain ⟨rest', hrest', rfl⟩ := h
        exact List.Forall₂.cons rfl (ih hrest')

lemma collect_eq_none {words : List (List Char)} {forb : List Char} :
    ∀ {parts : List (List Char)} (part : List Char), part ∈ parts →
      match_words words part forb = [] →
      collectCandidateLists words forb parts = none := by
  intro parts
  induction parts with
  | nil => intro part h; simp at h
  | cons p rest ih =>
      intro part hmem hempty
      rw [collectCandidateLists]
      by_cases hm : match_words words p forb = []
      · simp [hm]
      · rcases List.mem_cons.mp hmem with rfl | hmem'
        · exact absurd hempty hm
        · simp [hm, ih part hmem' hempty]

lemma forall₂_comp_mem {words : List (List Char)} {forb : List Char} :
    ∀ {parts : List (List Char)} {lists : List (List (List Char))}
      {ws : List (List Char)},
      List.Forall₂ (fun part l => l = match_words words part forb) parts lists →
      List.Forall₂ (fun w l => w ∈ l) ws lists →
      List.Forall₂ (fun part w => w ∈ match_words words part forb) parts ws := by
  intro parts lists ws h₁
  induction h₁ generalizing ws with
  | nil =>
      intro h₂
      cases h₂ with
      | nil => exact List.Forall₂.nil
  | @cons part l restp restl hpl _ ih =>
      intro h₂
      cases h₂ with
      | cons hw hws' => exact List.Forall₂.cons (hpl ▸ hw) (ih hws')

lemma solve_pattern_empty {pattern : List Char} {words : List (List Char)}
    {forb : List Char} (part : List Char) (hmem : part ∈ pySplit pattern)
    (hempty : match_words words part forb = []) :
    solve_pattern pattern words forb = [] := by
  rw [solve_pattern, collect_eq_none part hmem hempty]

lemma mem_solve_pattern {pattern : List Char} {words : List (List Char)}
    {forb : List Char} {cand : List Char}
    (h : cand ∈ solve_pattern pattern words forb) :
    ∃ ws : List (List Char),
      List.Forall₂ (fun part w => w ∈ match_words words part forb)
        (pySplit pattern) ws ∧ cand = joinSpace ws := by
  rw [solve_pattern] at h
  cases hcol : collectCandidateLists words forb (pySplit pattern) with
  | none => rw [hcol] at h; simp at h
  | some lists =>
      rw [hcol] at h
      obtain ⟨ws, hws, rfl⟩ := List.mem_map.mp h
      exact ⟨ws, forall₂_comp_mem (collect_eq_some hcol) (mem_pyProduct.mp hws), rfl⟩

/-! ### Candidates satisfy the pattern -/

lemma cellSpec_space {forb : List Char} : cellSpec forb ' ' ' ' :=
  ⟨fun _ => rfl, fun h => absurd h (by decide)⟩

lemma joinSpace_chars {segs : List (List Char)}
    (hval : ∀ seg ∈ segs, ∀ c ∈ seg, isUpperCh c = true ∨ c = '_') :
    ∀ c ∈ joinSpace segs, isUpperCh c = true ∨ c = '_' ∨ c = ' ' := by
  intro c hc
  rcases mem_joinSpace hc with h | ⟨seg, hseg, hcs⟩
  · right; right; exact h
  · exact (hval seg hseg c hcs).imp_right Or.inl

lemma seg_chars_ne_space {segs : List (List Char)}
    (hval : ∀ seg ∈ segs, seg ≠ [] ∧ ∀ c ∈ seg, isUpperCh c = true ∨ c = '_') :
    ∀ seg ∈ segs, seg ≠ [] ∧ ∀ c ∈ seg, c ≠ ' ' := by
  intro seg hseg
  refine ⟨(hval seg hseg).1, fun c hc => ?_⟩
  rcases (hval seg hseg).2 c hc with h | h
  · exact isUpper_ne_space h
  · subst h; decide

/-- Every candidate from either generation path satisfies the per-cell
guarantee against a valid pattern. -/
lemma candidate_cells {segs : List (List Char)} (hne : segs ≠ [])
    (hval : ∀ seg ∈ segs, seg ≠ [] ∧ ∀ c ∈ seg, isUpperCh c = true ∨ c = '_')
    {words phrases : List (List Char)} {forb : List Char} {cand : List Char}
    (h : cand ∈ phrase_matches (joinSpace segs) phrases forb ∨
         cand ∈ solve_pattern (joinSpace segs) words forb) :
    List.Forall₂ (cellSpec forb) (joinSpace segs) cand := by
  rcases h with h | h
  · obtain ⟨-, hrx, hfz⟩ := mem_phrase_matches.mp h
    exact cells_of_match (joinSpace_chars fun seg hs => (hval seg hs).2) hrx hfz
  · obtain ⟨ws, hws, rfl⟩ := mem_solve_pattern h
    rw [pySplit_joinSpace segs hne (seg_chars_ne_space hval)] at hws
    have hsegcells : List.Forall₂ (List.Forall₂ (cellSpec forb)) segs ws := by
      have hcomb := (List.forall₂_and_left segs ws).mpr
        ⟨fun seg hs => (hval seg hs).2, hws⟩
      refine hcomb.imp ?_
      rintro part w ⟨hchars, hmem⟩
      obtain ⟨-, -, hrx, hfz⟩ := mem_match_words.mp hmem
      exact cells_of_match (fun pc hpc => (hchars pc hpc).imp_right Or.inl) hrx hfz
    exact joinSpace_forall₂ cellSpec_space hsegcells

/-- The per-cell guarantee pins the spaces of the candidate to those of the
pattern, hence word count and per-word lengths agree. -/
lemma candidate_shape {forb : List Char} {P cand : List Char}
    (hPvalid : ∀ c ∈ P, isUpperCh c = true ∨ c = '_' ∨ c = ' ')
    (h : List.Forall₂ (cellSpec forb) P cand) :
    (pySplit cand).map List.length = (pySplit P).map List.length := by
  have hcomb := (List.forall₂_and_left P cand).mpr ⟨hPvalid, h⟩
  have hsp : List.Forall₂ (fun a b => (a = ' ') ↔ (b = ' ')) P cand := by
    refine hcomb.imp ?_
    rintro pc cc ⟨hvalid, hfix, hunk⟩
    rcases hvalid with hu | h_ | hspc
    · have hcc : cc = pc := hfix (isUpper_ne_underscore hu)
      subst hcc
      exact Iff.rfl
    · subst h_
      have := (hunk rfl).1
      constructor
      · intro h'; exact absurd h' (by decide)
      · intro h'; subst h'; exact absurd this (by decide)
    · subst hspc
      have hcc : cc = ' ' := hfix (by decide)
      subst hcc
      exact Iff.rfl
  exact (splitAux_shape hsp [] [] rfl).symm

lemma map_upperChar_valid {P : List Char}
    (h : ∀ c ∈ P, isUpperCh c = true ∨ c = '_' ∨ c = ' ') :
    P.map upperChar = P := by
  induction P with
  | nil => rfl
  | cons c cs ih =>
      rw [List.map_cons, upperChar_valid_id (h c (List.mem_cons_self c cs)),
        ih fun x hx => h x (List.mem_cons_of_mem c hx)]

/-- Membership in `solutions` comes from one of the two generation paths,
evaluated on the uppercased pattern with the internally computed forbidden
set. -/
lemma mem_wof_solutions {pattern0 : List Char} {al : Option (List Char)}
    {words phrases : List (List Char)} {cand : List Char}
    (h : cand ∈ (wof_solver pattern0 al words phrases).solutions) :
    cand ∈ phrase_matches (pattern0.map upperChar) phrases
        (forbiddenOf (pattern0.map upperChar)
          (extract_attempted_letters (pattern0.map upperChar) al)) ∨
      cand ∈ solve_pattern (pattern0.map upperChar) words
        (forbiddenOf (pattern0.map upperChar)
          (extract_attempted_letters (pattern0.map upperChar) al)) := by
  simp only [wof_solver] at h
  split at h
  · simp at h
  · exact List.mem_append.mp (mem_sortedStrings.mp h)

/-! ### Counter fundamentals -/

lemma cntAdd_cons_ne {q : Char × Int} {rest : List (Char × Int)} {ch : Char}
    {v : Int} (hq : q.1 ≠ ch) :
    cntAdd (q :: rest) ch v = q :: cntAdd rest ch v := by
  unfold cntAdd
  have hany : ((q :: rest).any fun p => decide (p.1 = ch)) =
      (rest.any fun p => decide (p.1 = ch)) := by
    simp [List.any_cons, hq]
  rw [hany]
  by_cases h : (rest.any fun p => decide (p.1 = ch)) = true
  · simp [h, hq]
  · simp only [Bool.not_eq_true] at h
    simp [h, hq]

lemma cntAdd_cons_eq {q : Char × Int} {rest : List (Char × Int)} {ch : Char}
    {v : Int} (hq : q.1 = ch) :
    cntAdd (q :: rest) ch v =
      (q.1, q.2 + v) :: rest.map fun p => if p.1 = ch then (p.1, p.2 + v) else p := by
  unfold cntAdd
  simp [List.any_cons, hq]

lemma keys_map_upd (rest : List (Char × Int)) (ch : Char) (v : Int) :
    ((rest.map fun p => if p.1 = ch then (p.1, p.2 + v) else p).map Prod.fst) =
      rest.map Prod.fst := by
  induction rest with
  | nil => rfl
  | cons p ps ih =>
      by_cases h : p.1 = ch <;> simp [h, ih]

lemma cntGet_map_upd_ne {rest : List (Char × Int)} {ch ch' : Char} {v : Int}
    (h : ch ≠ ch') :
    cntGet (rest.map fun p => if p.1 = ch then (p.1, p.2 + v) else p) ch' =
      cntGet rest ch' := by
  induction rest with
  | nil => rfl
  | cons p ps ih =>
      by_cases hp : p.1 = ch
      · have hp' : p.1 ≠ ch' := by rw [hp]; exact h
        simp [cntGet, hp, hp', h, ih]
      · by_cases hp' : p.1 = ch'
        · simp [cntGet, hp, hp', Ne.symm h]
        · simp [cntGet, hp, hp', ih]

lemma cntGet_cntAdd_self (counts : List (Char × Int)) (ch : Char) (v : Int) :
    cntGet (cntAdd counts ch v) ch = cntGet counts ch + v := by
  induction counts with
  | nil => simp [cntAdd, cntGet]
  | cons q rest ih =>
      by_cases hq : q.1 = ch
      · rw [cntAdd_cons_eq hq]
        simp [cntGet, hq]
      · rw [cntAdd_cons_ne hq]
        simp [cntGet, hq, ih]

lemma cntGet_cntAdd_ne (counts : List (Char × Int)) {ch ch' : Char} (v : Int)
    (h : ch ≠ ch') :
    cntGet (cntAdd counts ch v) ch' = cntGet counts ch' := by
  induction counts with
  | nil => simp [cntAdd, cntGet, h]
  | cons q rest ih =>
      by_cases hq : q.1 = ch
      · rw [cntAdd_cons_eq hq]
        have hq' : q.1 ≠ ch' := by rw [hq]; exact h
        simp [cntGet, hq', cntGet_map_upd_ne h]
      · rw [cntAdd_cons_ne hq]
        by_cases hq' : q.1 = ch'
        · simp [cntGet, hq']
        · simp [cntGet, hq', ih]

lemma keys_cntAdd (counts : List (Char × Int)) (ch : Char) (v : Int) :
    (cntAdd counts ch v).map Prod.fst =
      if ch ∈ counts.map Prod.fst then counts.map Prod.fst
      else counts.map Prod.fst ++ [ch] := by
  by_cases h : ch ∈ counts.map Prod.fst
  · have hany : (counts.any fun p => decide (p.1 = ch)) = true := by
      obtain ⟨p, hp, he⟩ := List.mem_map.mp h
      exact List.any_eq_true.mpr ⟨p, hp, by simpa using he⟩
    simp only [cntAdd, hany, if_true, reduceIte, h, keys_map_upd]
  · have hany : (counts.any fun p => decide (p.1 = ch)) = false := by
      rw [Bool.eq_false_iff]
      intro hc
      obtain ⟨p, hp, he⟩ := List.any_eq_true.mp hc
      exact h (List.mem_map.mpr ⟨p, hp, by simpa using he⟩)
    simp only [cntAdd, hany, Bool.false_eq_true, if_false, reduceIte, h,
      List.map_append, List.map_cons, List.map_nil]

lemma mem_of_cntGet {counts : List (Char × Int)} {ch : Char}
    (h : ch ∈ counts.map Prod.fst) : (ch, cntGet counts ch) ∈ counts := by
  induction counts with
  | nil => simp at h
  | cons q rest ih =>
      by_cases hq : q.1 = ch
      · have : (ch, cntGet (q :: rest) ch) = q := by
          rw [show cntGet (q :: rest) ch = q.2 by simp [cntGet, hq], ← hq]
        rw [this]
        exact List.mem_cons_self q rest
      · have h' : ch ∈ rest.map Prod.fst := by
          rw [List.map_cons] at h
          rcases List.mem_cons.mp h with h' | h'
          · exact absurd h'.symm hq
          · exact h'
        rw [show cntGet (q :: rest) ch = cntGet rest ch by simp [cntGet, hq]]
        exact List.mem_cons_of_mem q (ih h')

lemma cntGet_of_not_mem {counts : List (Char × Int)} {ch : Char}
    (h : ch ∉ counts.map Prod.fst) : cntGet counts ch = 0 := by
  induction counts with
  | nil => rfl
  | cons q rest ih =>
      have hq : q.1 ≠ ch := fun e => h (by simp [← e])
      have h' : ch ∉ rest.map Prod.fst := fun e => h (by simp [e])
      simp [cntGet, hq, ih h']

lemma value_unique {counts : List (Char × Int)}
    (hnd : (counts.map Prod.fst).Nodup) {ch : Char} {v : Int}
    (h : (ch, v) ∈ counts) : v = cntGet counts ch := by
  induction counts with
  | nil => simp at h
  | cons q rest ih =>
      rcases List.mem_cons.mp h with h' | h'
      · rw [← h']
        simp [cntGet]
      · have hq : q.1 ≠ ch := by
          intro e
          have : ch ∈ rest.map Prod.fst := List.mem_map.mpr ⟨(ch, v), h', rfl⟩
          exact (List.nodup_cons.mp (by simpa using hnd)).1 (e ▸ this)
        rw [show cntGet (q :: rest) ch = cntGet rest ch by simp [cntGet, hq]]
        exact ih (List.nodup_cons.mp (by simpa using hnd)).2 h'

/-! ### Counter invariants through the recommender's loops -/

/-- Invariant of the credit-accumulation phase: keys are distinct, and every
key is an unattempted uppercase letter. -/
def GoodCounts (attempted : List Char) (counts : List (Char × Int)) : Prop :=
  (counts.map Prod.fst).Nodup ∧ ∀ p ∈ counts, isUpperCh p.1 = true ∧ p.1 ∉ attempted

lemma goodCounts_cntAdd {att : List Char} {counts : List (Char × Int)}
    {ch : Char} {v : Int} (h : GoodCounts att counts)
    (hch : isUpperCh ch = true ∧ ch ∉ att) : GoodCounts att (cntAdd counts ch v) := by
  obtain ⟨hnd, hall⟩ := h
  constructor
  · rw [keys_cntAdd]
    split
    · exact hnd
    · next hmem =>
        refine List.Nodup.append hnd (List.nodup_singleton ch) ?_
        intro a ha hb
        rw [List.mem_singleton.mp hb] at ha
        exact hmem ha
  · intro p hp
    unfold cntAdd at hp
    split at hp
    · obtain ⟨p₀, hp₀, he⟩ := List.mem_map.mp hp
      have : p.1 = p₀.1 := by
        rw [← he]; split <;> rfl
      rw [this]
      exact hall p₀ hp₀
    · rcases List.mem_append.mp hp with h' | h'
      · exact hall p h'
      · rw [List.mem_singleton.mp h']
        exact hch

lemma goodCounts_step {att : List Char} {ps : List (List Char)} {s0 : List Char}
    {w : Int} {counts : List (Char × Int)} {ch : Char}
    (h : GoodCounts att counts) :
    GoodCounts att (recommendStepChar att ps s0 w counts ch) := by
  unfold recommendStepChar
  split
  · next hcond =>
      have h' := hcond
      simp only [Bool.and_eq_true, Bool.not_eq_true', decide_eq_false_iff_not] at h'
      have hup : isUpperCh ch = true := h'.1
      have hatt : ch ∉ att := h'.2
      split
      · exact goodCounts_cntAdd (goodCounts_cntAdd h ⟨hup, hatt⟩) ⟨hup, hatt⟩
      · exact goodCounts_cntAdd h ⟨hup, hatt⟩
  · exact h

lemma goodCounts_charFold {att : List Char} {ps : List (List Char)}
    {s0 : List Char} {w : Int} :
    ∀ (s : List Char) {counts : List (Char × Int)}, GoodCounts att counts →
      GoodCounts att (s.foldl (recommendStepChar att ps s0 w) counts) := by
  intro s
  induction s with
  | nil => intro counts h; exact h
  | cons c cs ih =>
      intro counts h
      exact ih (goodCounts_step h)

lemma goodCounts_base (att : List Char) (ps : List (List Char))
    (pairs : List (List Char × Int)) : GoodCounts att (baseCounts att ps pairs) := by
  have hgen : ∀ (l : List (List Char × Int)) (counts : List (Char × Int)),
      GoodCounts att counts →
      GoodCounts att (l.foldl
        (fun counts sw => sw.1.foldl (recommendStepChar att ps sw.1 sw.2) counts)
        counts) := by
    intro l
    induction l with
    | nil => intro counts h; exact h
    | cons sw rest ih =>
        intro counts h
        exact ih _ (goodCounts_charFold sw.1 h)
  exact hgen pairs [] ⟨List.nodup_nil, by simp⟩

/-- All stored credits are positive (true whenever every weight used is
positive, in particular for the default weight 1). -/
def PosCounts (counts : List (Char × Int)) : Prop := ∀ p ∈ counts, 0 < p.2

lemma posCounts_cntAdd {counts : List (Char × Int)} {ch : Char} {v : Int}
    (h : PosCounts counts) (hv : 0 < v) : PosCounts (cntAdd counts ch v) := by
  intro p hp
  unfold cntAdd at hp
  split at hp
  · obtain ⟨p₀, hp₀, he⟩ := List.mem_map.mp hp
    rw [← he]
    split
    · exact Int.add_pos (h p₀ hp₀) hv
    · exact h p₀ hp₀
  · rcases List.mem_append.mp hp with h' | h'
    · exact h p h'
    · rw [List.mem_singleton.mp h']
      exact hv

lemma posCounts_step {att : List Char} {ps : List (List Char)} {s0 : List Char}
    {w : Int} {counts : List (Char × Int)} {ch : Char}
    (hw : 0 < w) (h : PosCounts counts) :
    PosCounts (recommendStepChar att ps s0 w counts ch) := by
  unfold recommendStepChar
  split
  · split
    · exact posCounts_cntAdd (posCounts_cntAdd h hw) (by positivity)
    · exact posCounts_cntAdd h hw
  · exact h

lemma posCounts_charFold {att : List Char} {ps : List (List Char)}
    {s0 : List Char} {w : Int} (hw : 0 < w) :
    ∀ (s : List Char) {counts : List (Char × Int)}, PosCounts counts →
      PosCounts (s.foldl (recommendStepChar att ps s0 w) counts) := by
  intro s
  induction s with
  | nil => intro counts h; exact h
  | cons c cs ih =>
      intro counts h
      exact ih (posCounts_step hw h)

lemma posCounts_base (att : List Char) (ps : List (List Char))
    (pairs : List (List Char × Int)) (hw : ∀ p ∈ pairs, 0 < p.2) :
    PosCounts (baseCounts att ps pairs) := by
  have hgen : ∀ (l : List (List Char × Int)), (∀ p ∈ l, 0 < p.2) →
      ∀ (counts : List (Char × Int)), PosCounts counts →
      PosCounts (l.foldl
        (fun counts sw => sw.1.foldl (recommendStepChar att ps sw.1 sw.2) counts)
        counts) := by
    intro l
    induction l with
    | nil => intro _ counts h; exact h
    | cons sw rest ih =>
        intro hl counts h
        exact ih (fun p hp => hl p (List.mem_cons_of_mem sw hp)) _
          (posCounts_charFold (hl sw (List.mem_cons_self sw rest)) sw.1 h)
  exact hgen pairs hw [] (by intro p hp; simp at hp)

/-! ### Accumulated credit through the recommender's loops -/

lemma cntGet_charFold (att : List Char) (ps : List (List Char)) (s0 : List Char)
    (w : Int) :
    ∀ (s : List Char) (counts : List (Char × Int)) (ch : Char),
      cntGet (s.foldl (recommendStepChar att ps s0 w) counts) ch =
        cntGet counts ch +
          (if isUpperCh ch = true ∧ ch ∉ att then
            (s.count ch : Int) * (if s0 ∈ ps then w + w * 10 else w)
          else 0) := by
  intro s
  induction s with
  | nil =>
      intro counts ch
      simp
  | cons c cs ih =>
      intro counts ch
      rw [List.foldl_cons, ih]
      by_cases hc : c = ch
      · subst hc
        by_cases hcond : isUpperCh c = true ∧ c ∉ att
        · have hbool : (isUpperCh c && !(decide (c ∈ att))) = true := by
            simp [hcond.1, hcond.2]
          rw [recommendStepChar, if_pos hbool]
          by_cases hps : s0 ∈ ps
          · rw [if_pos (by simpa using hps)]
            rw [cntGet_cntAdd_self, cntGet_cntAdd_self, if_pos hcond, if_pos hcond,
              if_pos hps, List.count_cons_self]
            push_cast
            ring
          · rw [if_neg (by simpa using hps)]
            rw [cntGet_cntAdd_self, if_pos hcond, if_pos hcond,
              if_neg hps, List.count_cons_self]
            push_cast
            ring
        · have hbool : (isUpperCh c && !(decide (c ∈ att))) = false := by
            rcases Decidable.not_and_iff_or_not.mp hcond with h' | h'
            · simp [Bool.eq_false_iff, h']
            · simp [Bool.and_eq_false_iff]
              intro h''
              simpa using Decidable.not_not.mp h'
          rw [recommendStepChar, if_neg (by simp [hbool])]
          rw [if_neg hcond, if_neg hcond]
      · have : cntGet (recommendStepChar att ps s0 w counts c) ch = cntGet counts ch := by
          rw [recommendStepChar]
          split
          · split
            · rw [cntGet_cntAdd_ne _ _ hc, cntGet_cntAdd_ne _ _ hc]
            · rw [cntGet_cntAdd_ne _ _ hc]
          · rfl
        rw [this, List.count_cons_of_ne fun e => hc e.symm]

lemma cntGet_solFold (att : List Char) (ps : List (List Char)) :
    ∀ (pairs : List (List Char × Int)) (counts : List (Char × Int)) (ch : Char),
      cntGet (pairs.foldl
          (fun counts sw => sw.1.foldl (recommendStepChar att ps sw.1 sw.2) counts)
          counts) ch =
        cntGet counts ch +
          (if isUpperCh ch = true ∧ ch ∉ att then
            (pairs.map fun sw =>
              (sw.1.count ch : Int) * (if sw.1 ∈ ps then sw.2 + sw.2 * 10 else sw.2)).sum
          else 0) := by
  intro pairs
  induction pairs with
  | nil =>
      intro counts ch
      simp
  | cons sw rest ih =>
      intro counts ch
      rw [List.foldl_cons, ih, cntGet_charFold]
      by_cases hcond : isUpperCh ch = true ∧ ch ∉ att
      · rw [if_pos hcond, if_pos hcond, if_pos hcond, List.map_cons, List.sum_cons]
        ring
      · rw [if_neg hcond, if_neg hcond, if_neg hcond]
        ring

lemma cntGet_baseCounts (att : List Char) (ps : List (List Char))
    (pairs : List (List Char × Int)) (ch : Char) :
    cntGet (baseCounts att ps pairs) ch =
      if isUpperCh ch = true ∧ ch ∉ att then
        (pairs.map fun sw =>
          (sw.1.count ch : Int) * (if sw.1 ∈ ps then sw.2 + sw.2 * 10 else sw.2)).sum
      else 0 := by
  rw [baseCounts, cntGet_solFold]
  simp [cntGet]

lemma letterCredit_cons (ps : List (List Char)) (s : List Char)
    (rest : List (List Char)) (ch : Char) :
    letterCredit ps (s :: rest) ch =
      (s.count ch : Int) * (if s ∈ ps then 11 else 1) + letterCredit ps rest ch := by
  simp [letterCredit]

lemma zip_replicate_credit (ps : List (List Char)) (ch : Char) :
    ∀ sols : List (List Char),
      ((sols.zip (List.replicate sols.length (1 : Int))).map fun sw =>
        (sw.1.count ch : Int) * (if sw.1 ∈ ps then sw.2 + sw.2 * 10 else sw.2)).sum =
      letterCredit ps sols ch := by
  intro sols
  induction sols with
  | nil => simp [letterCredit]
  | cons s rest ih =>
      rw [List.length_cons, List.replicate_succ, List.zip_cons_cons, List.map_cons,
        List.sum_cons, ih, letterCredit_cons]
      by_cases hps : s ∈ ps
      · simp only [hps, if_true, reduceIte]
        norm_num
      · simp only [hps, if_false, reduceIte]

lemma weights_pos_of_zip_replicate {sols : List (List Char)}
    {p : List Char × Int} (hp : p ∈ sols.zip (List.replicate sols.length (1 : Int))) :
    0 < p.2 := by
  have := List.of_mem_zip hp
  have h2 := this.2
  rw [List.eq_of_mem_replicate h2]
  decide

/-! ### The penalty loop -/

lemma any_key_iff (counts : List (Char × Int)) (ch : Char) :
    (counts.any fun p => decide (p.1 = ch)) = decide (ch ∈ counts.map Prod.fst) := by
  by_cases h : ch ∈ counts.map Prod.fst
  · obtain ⟨p, hp, he⟩ := List.mem_map.mp h
    rw [decide_eq_true h]
    exact List.any_eq_true.mpr ⟨p, hp, by simpa using he⟩
  · rw [decide_eq_false h, Bool.eq_false_iff]
    intro hc
    obtain ⟨p, hp, he⟩ := List.any_eq_true.mp hc
    exact h (List.mem_map.mpr ⟨p, hp, by simpa using he⟩)

lemma penAux_keys (att : List Char) :
    ∀ (letters : List Char), letters.Nodup → ∀ counts : List (Char × Int),
      ((letters.foldl (penStep att) counts).map Prod.fst) =
        counts.map Prod.fst ++
          letters.filter fun ch =>
            !(decide (ch ∈ att)) && !(decide (ch ∈ counts.map Prod.fst)) := by
  intro letters
  induction letters with
  | nil =>
      intro _ counts
      simp
  | cons l rest ih =>
      intro hnd counts
      have hlrest : l ∉ rest := (List.nodup_cons.mp hnd).1
      have hndrest : rest.Nodup := (List.nodup_cons.mp hnd).2
      rw [List.foldl_cons, penStep, any_key_iff]
      by_cases hcond : l ∉ att ∧ l ∉ counts.map Prod.fst
      · have hbool : (!(decide (l ∈ att)) && !(decide (l ∈ counts.map Prod.fst))) = true := by
          simp [hcond.1, hcond.2]
        rw [if_pos hbool, ih hndrest]
        have hkeys : (cntAdd counts l (-1)).map Prod.fst =
            counts.map Prod.fst ++ [l] := by
          rw [keys_cntAdd, if_neg hcond.2]
        rw [hkeys]
        have hfilter : (rest.filter fun ch =>
            !(decide (ch ∈ att)) && !(decide (ch ∈ counts.map Prod.fst ++ [l]))) =
            rest.filter fun ch =>
              !(decide (ch ∈ att)) && !(decide (ch ∈ counts.map Prod.fst)) := by
          apply List.filter_congr
          intro x hx
          have hxl : x ≠ l := fun e => hlrest (e ▸ hx)
          have : (x ∈ counts.map Prod.fst ++ [l]) ↔ x ∈ counts.map Prod.fst := by
            rw [List.mem_append, List.mem_singleton]
            exact ⟨fun h => h.resolve_right hxl, Or.inl⟩
          simp only [this]
        rw [hfilter]
        simp only [List.filter_cons, hbool, if_true, reduceIte]
        rw [List.append_assoc, List.singleton_append]
      · have hbool : (!(decide (l ∈ att)) && !(decide (l ∈ counts.map Prod.fst))) = false := by
          rcases Decidable.not_and_iff_or_not.mp hcond with h' | h'
          · simp [Decidable.not_not.mp h']
          · simp [Decidable.not_not.mp h']
        rw [if_neg (by simp [hbool]), ih hndrest]
        simp only [List.filter_cons, hbool, Bool.false_eq_true, if_false, reduceIte]

lemma penAux_get (att : List Char) :
    ∀ (letters : List Char), letters.Nodup → ∀ (counts : List (Char × Int)) (ch : Char),
      cntGet (letters.foldl (penStep att) counts) ch =
        if ch ∈ letters ∧ ch ∉ att ∧ ch ∉ counts.map Prod.fst then -1
        else cntGet counts ch := by
  intro letters
  induction letters with
  | nil =>
      intro _ counts ch
      simp
  | cons l rest ih =>
      intro hnd counts ch
      have hlrest : l ∉ rest := (List.nodup_cons.mp hnd).1
      have hndrest : rest.Nodup := (List.nodup_cons.mp hnd).2
      rw [List.foldl_cons, penStep, any_key_iff]
      by_cases hcond : l ∉ att ∧ l ∉ counts.map Prod.fst
      · have hbool : (!(decide (l ∈ att)) && !(decide (l ∈ counts.map Prod.fst))) = true := by
          simp [hcond.1, hcond.2]
        rw [if_pos hbool, ih hndrest]
        have hkeys : (cntAdd counts l (-1)).map Prod.fst =
            counts.map Prod.fst ++ [l] := by
          rw [keys_cntAdd, if_neg hcond.2]
        by_cases hch : ch = l
        · subst hch
          have hmem : ch ∈ counts.map Prod.fst ++ [ch] := by simp
          rw [if_neg (by rw [hkeys]; tauto), cntGet_cntAdd_self,
            cntGet_of_not_mem hcond.2]
          rw [if_pos ⟨List.mem_cons_self ch rest, hcond.1, hcond.2⟩]
          ring
        · have hkeymem : ch ∈ (cntAdd counts l (-1)).map Prod.fst ↔
              ch ∈ counts.map Prod.fst := by
            rw [hkeys, List.mem_append, List.mem_singleton]
            exact ⟨fun h => h.resolve_right hch, Or.inl⟩
          have hgetne : cntGet (cntAdd counts l (-1)) ch = cntGet counts ch :=
            cntGet_cntAdd_ne _ _ (fun e => hch e.symm)
          by_cases hrest : ch ∈ rest ∧ ch ∉ att ∧ ch ∉ counts.map Prod.fst
          · rw [if_pos ⟨hrest.1, hrest.2.1, by rw [hkeymem]; exact hrest.2.2⟩,
              if_pos ⟨List.mem_cons_of_mem l hrest.1, hrest.2⟩]
          · have : ¬(ch ∈ rest ∧ ch ∉ att ∧ ch ∉ (cntAdd counts l (-1)).map Prod.fst) := by
              intro h'
              exact hrest ⟨h'.1, h'.2.1, by rw [← hkeymem]; exact h'.2.2⟩
            rw [if_neg this, hgetne]
            have : ¬(ch ∈ l :: rest ∧ ch ∉ att ∧ ch ∉ counts.map Prod.fst) := by
              intro h'
              rcases List.mem_cons.mp h'.1 with h'' | h''
              · exact hch h''
              · exact hrest ⟨h'', h'.2⟩
            rw [if_neg this]
      · have hbool : (!(decide (l ∈ att)) && !(decide (l ∈ counts.map Prod.fst))) = false := by
          rcases Decidable.not_and_iff_or_not.mp hcond with h' | h'
          · simp [Decidable.not_not.mp h']
          · simp [Decidable.not_not.mp h']
        rw [if_neg (by simp [hbool]), ih hndrest]
        by_cases hch : ch = l
        · subst hch
          rw [if_neg (fun h' => hlrest h'.1)]
          rw [if_neg (fun h' => hcond h'.2)]
        · by_cases hrest : ch ∈ rest ∧ ch ∉ att ∧ ch ∉ counts.map Prod.fst
          · rw [if_pos hrest, if_pos ⟨List.mem_cons_of_mem l hrest.1, hrest.2⟩]
          · rw [if_neg hrest]
            have : ¬(ch ∈ l :: rest ∧ ch ∉ att ∧ ch ∉ counts.map Prod.fst) := by
              intro h'
              rcases List.mem_cons.mp h'.1 with h'' | h''
              · exact hch h''
              · exact hrest ⟨h'', h'.2⟩
            rw [if_neg this]

/-! ### The recommender's output -/

lemma penalize_keys_eq (att : List Char) (counts : List (Char × Int)) :
    (penalize att counts).map Prod.fst =
      counts.map Prod.fst ++
        asciiUppercase.filter fun ch =>
          !(decide (ch ∈ att)) && !(decide (ch ∈ counts.map Prod.fst)) :=
  penAux_keys att asciiUppercase (by decide) counts

lemma penalize_keys_nodup (att : List Char) {counts : List (Char × Int)}
    (hnd : (counts.map Prod.fst).Nodup) :
    ((penalize att counts).map Prod.fst).Nodup := by
  rw [penalize_keys_eq]
  refine List.Nodup.append hnd (List.Nodup.filter _ (by decide)) ?_
  intro a ha hb
  have hpred := List.of_mem_filter hb
  simp only [Bool.and_eq_true, Bool.not_eq_true', decide_eq_false_iff_not] at hpred
  exact hpred.2 ha

lemma penalize_keys_perm {att : List Char} {counts : List (Char × Int)}
    (good : GoodCounts att counts) :
    List.Perm ((penalize att counts).map Prod.fst)
      (asciiUppercase.filter fun ch => !(decide (ch ∈ att))) := by
  have hnd := penalize_keys_nodup att good.1
  refine (List.perm_ext_iff_of_nodup hnd (List.Nodup.filter _ (by decide))).mpr ?_
  intro a
  rw [penalize_keys_eq, List.mem_append, List.mem_filter, List.mem_filter]
  constructor
  · rintro (h | h)
    · obtain ⟨p, hp, he⟩ := List.mem_map.mp h
      obtain ⟨hup, hatt⟩ := good.2 p hp
      constructor
      · rw [← he]
        exact of_decide_eq_true hup
      · rw [← he]
        simp [hatt]
    · obtain ⟨ha, hpred⟩ := h
      simp only [Bool.and_eq_true, Bool.not_eq_true', decide_eq_false_iff_not] at hpred
      exact ⟨ha, by simp [hpred.1]⟩
  · rintro ⟨ha, hpred⟩
    simp only [Bool.not_eq_true', decide_eq_false_iff_not] at hpred
    by_cases hk : a ∈ counts.map Prod.fst
    · left; exact hk
    · right; exact ⟨ha, by simp [hpred, hk]⟩

lemma recommend_mem_iff {sols : List (List Char)} {att : List Char}
    {w : Option (List Int)} {ps : List (List Char)} {p : Char × Int} :
    p ∈ recommend_next_letter sols att w ps ↔
      p ∈ penalize att
        (baseCounts att ps (sols.zip (w.getD (List.replicate sols.length 1)))) :=
  (insSortBy_perm sndGe _).mem_iff

lemma recommend_keys_perm (sols : List (List Char)) (att : List Char)
    (w : Option (List Int)) (ps : List (List Char)) :
    List.Perm ((recommend_next_letter sols att w ps).map Prod.fst)
      (asciiUppercase.filter fun ch => !(decide (ch ∈ att))) :=
  ((insSortBy_perm sndGe _).map Prod.fst).trans
    (penalize_keys_perm (goodCounts_base att ps _))

lemma recommend_chain (sols : List (List Char)) (att : List Char)
    (w : Option (List Int)) (ps : List (List Char)) :
    (recommend_next_letter sols att w ps).Chain' fun p q => q.2 ≤ p.2 :=
  List.Chain'.imp (fun a b h => by simpa [sndGe] using h)
    (insSortBy_chain sndGe_total _)

/-- With default weights, the recommender's entry for an unattempted uppercase
letter is its accumulated credit, or `-1` when that credit is zero. -/
lemma recommend_value {sols : List (List Char)} {att : List Char}
    {ps : List (List Char)} {ch : Char} (hch : ch ∈ asciiUppercase)
    (hatt : ch ∉ att) :
    (ch, if letterCredit ps sols ch = 0 then -1 else letterCredit ps sols ch) ∈
        recommend_next_letter sols att none ps ∧
      ∀ v : Int, (ch, v) ∈ recommend_next_letter sols att none ps →
        v = if letterCredit ps sols ch = 0 then -1 else letterCredit ps sols ch := by
  have hup : isUpperCh ch = true := decide_eq_true hch
  have hget1 : cntGet (baseCounts att ps
      (sols.zip (List.replicate sols.length (1 : Int)))) ch =
      letterCredit ps sols ch := by
    rw [cntGet_baseCounts, if_pos ⟨hup, hatt⟩, zip_replicate_credit]
  have hpos : PosCounts (baseCounts att ps
      (sols.zip (List.replicate sols.length (1 : Int)))) :=
    posCounts_base att ps _ fun p hp => weights_pos_of_zip_replicate hp
  have hgood : GoodCounts att (baseCounts att ps
      (sols.zip (List.replicate sols.length (1 : Int)))) :=
    goodCounts_base att ps _
  have hiff : ch ∈ (baseCounts att ps
      (sols.zip (List.replicate sols.length (1 : Int)))).map Prod.fst ↔
      letterCredit ps sols ch ≠ 0 := by
    constructor
    · intro hk
      have hv := hpos _ (mem_of_cntGet hk)
      rw [hget1] at hv
      exact ne_of_gt hv
    · intro hne
      by_contra hk
      exact hne (hget1 ▸ cntGet_of_not_mem hk)
  have hget2 : cntGet (penalize att (baseCounts att ps
      (sols.zip (List.replicate sols.length (1 : Int))))) ch =
      if letterCredit ps sols ch = 0 then -1 else letterCredit ps sols ch := by
    rw [penalize, penAux_get att asciiUppercase (by decide)]
    by_cases hk : ch ∈ (baseCounts att ps
        (sols.zip (List.replicate sols.length (1 : Int)))).map Prod.fst
    · rw [if_neg fun h' => h'.2.2 hk, hget1, if_neg (hiff.mp hk)]
    · have h0 : letterCredit ps sols ch = 0 := by
        by_contra h0
        exact hk (hiff.mpr h0)
      rw [if_pos ⟨hch, hatt, hk⟩, if_pos h0]
  have hkey2 : ch ∈ (penalize att (baseCounts att ps
      (sols.zip (List.replicate sols.length (1 : Int))))).map Prod.fst := by
    rw [penalize_keys_eq, List.mem_append]
    by_cases hk : ch ∈ (baseCounts att ps
        (sols.zip (List.replicate sols.length (1 : Int)))).map Prod.fst
    · left; exact hk
    · right
      rw [List.mem_filter]
      exact ⟨hch, by simp [hatt, hk]⟩
  have hnd2 := penalize_keys_nodup att hgood.1
  constructor
  · rw [recommend_mem_iff, ← hget2]
    exact mem_of_cntGet hkey2
  · intro v hv
    rw [recommend_mem_iff] at hv
    rw [← hget2]
    exact value_unique hnd2 hv

/-! ### Ranking and facade support -/

lemma chain'_mono_mem {R S : α → α → Prop} :
    ∀ {l : List α}, (∀ a ∈ l, ∀ b ∈ l, R a b → S a b) → l.Chain' R → l.Chain' S := by
  intro l
  induction l with
  | nil => intro _ _; exact List.chain'_nil
  | cons x xs ih =>
      intro hmem hch
      rcases List.chain'_cons'.mp hch with ⟨hhead, htail⟩
      refine List.chain'_cons'.mpr ⟨?_, ih (fun a ha b hb =>
        hmem a (List.mem_cons_of_mem x ha) b (List.mem_cons_of_mem x hb)) htail⟩
      intro y hy
      have hy' : y ∈ xs := List.mem_of_mem_head? hy
      exact hmem x (List.mem_cons_self x xs) y (List.mem_cons_of_mem x hy') (hhead y hy)

lemma rank_solutions_perm (sols : List (List Char)) (ps : List (List Char)) :
    List.Perm (rank_solutions sols ps) sols := by
  have h1 := (insSortBy_perm sndGe (sols.map fun s => (s, scoreOf ps s))).map Prod.fst
  rw [rank_solutions]
  refine h1.trans ?_
  rw [List.map_map]
  have h2 : (Prod.fst ∘ fun s : List Char => (s, scoreOf ps s)) = id := rfl
  rw [h2, List.map_id]

lemma rank_solutions_chain (sols : List (List Char)) (ps : List (List Char)) :
    (rank_solutions sols ps).Chain' fun a b => scoreOf ps b ≤ scoreOf ps a := by
  have hchain := insSortBy_chain sndGe_total (sols.map fun s => (s, scoreOf ps s))
  have hfact : ∀ p ∈ insSortBy sndGe (sols.map fun s => (s, scoreOf ps s)),
      p.2 = scoreOf ps p.1 := by
    intro p hp
    have hp' := (insSortBy_perm sndGe _).mem_iff.mp hp
    obtain ⟨s, _, he⟩ := List.mem_map.mp hp'
    rw [← he]
  rw [rank_solutions, List.chain'_map]
  refine chain'_mono_mem ?_ hchain
  intro a ha b hb h
  have h' : b.2 ≤ a.2 := by simpa [sndGe] using h
  rw [hfact a ha, hfact b hb] at h'
  exact h'

lemma wof_ranked_eq (pattern0 : List Char) (al : Option (List Char))
    (words phrases : List (List Char)) :
    (wof_solver pattern0 al words phrases).ranked =
      rank_solutions (wof_solver pattern0 al words phrases).solutions phrases := by
  simp only [wof_solver]
  split
  · rfl
  · rfl

lemma wof_next_letter_eq (pattern0 : List Char) (al : Option (List Char))
    (words phrases : List (List Char)) :
    ∃ sols : List (List Char),
      (wof_solver pattern0 al words phrases).next_letter =
        recommend_next_letter sols
          (extract_attempted_letters (pattern0.map upperChar) al) none phrases := by
  simp only [wof_solver]
  split
  · exact ⟨[], rfl⟩
  · exact ⟨_, rfl⟩

lemma recommend_not_attempted (sols : List (List Char)) (att : List Char)
    (w : Option (List Int)) (ps : List (List Char)) :
    ∀ p ∈ recommend_next_letter sols att w ps, p.1 ∉ att := by
  intro p hp hmem
  have h1 : p.1 ∈ (recommend_next_letter sols att w ps).map Prod.fst :=
    List.mem_map_of_mem Prod.fst hp
  have h2 := (recommend_keys_perm sols att w ps).mem_iff.mp h1
  have h3 := List.of_mem_filter h2
  simp only [Bool.not_eq_true', decide_eq_false_iff_not] at h3
  exact h3 hmem

lemma splitAux_ne_nil : ∀ (s : List Char) (cur : List Char),
    cur ≠ [] ∨ (∃ c ∈ s, c ≠ ' ') → splitAux cur s ≠ [] := by
  intro s
  induction s with
  | nil =>
      intro cur h
      rcases h with h | h
      · simp [splitAux, h]
      · simp at h
  | cons c cs ih =>
      intro cur h
      rw [splitAux]
      by_cases hc : c = ' '
      · subst hc
        by_cases hcur : cur = []
        · simp only [if_pos rfl, hcur, if_true, reduceIte]
          refine ih [] (Or.inr ?_)
          rcases h with h | ⟨x, hx, hxs⟩
          · exact absurd hcur h
          · rcases List.mem_cons.mp hx with rfl | hx'
            · exact absurd rfl hxs
            · exact ⟨x, hx', hxs⟩
        · simp [hcur]
      · simp only [hc, if_false, reduceIte]
        exact ih (c :: cur) (Or.inl (List.cons_ne_nil c cur))

lemma pySplit_ne_nil {s : List Char} (h : ∃ c ∈ s, c ≠ ' ') : pySplit s ≠ [] :=
  splitAux_ne_nil s [] (Or.inr h)

lemma match_words_nil (pw : List Char) (forb : List Char) :
    match_words [] pw forb = [] := rfl

lemma etaoin_count (ch : Char) :
    etaoin.count ch = if ch ∈ etaoin then 1 else 0 := by
  by_cases h : ch ∈ etaoin
  · rw [if_pos h]
    exact List.count_eq_one_of_mem (by decide) h
  · rw [if_neg h]
    exact List.count_eq_zero_of_not_mem h

/-! ### The claims -/

/-- C1: for every valid pattern (uppercase letters, placeholders, single
spaces), corpora and attempted letters, every candidate string in `solutions`
has the same word count and per-word lengths as the pattern, reproduces every
fixed cell (letter or space) unchanged at its position, and holds in every
originally-unknown cell an uppercase letter outside the attempted-letter
set. -/
theorem claim_C1 (P : List Char) (al : Option (List Char))
    (words phrases : List (List Char)) (hP : ValidPattern P) :
    ∀ cand ∈ (wof_solver P al words phrases).solutions,
      (pySplit cand).map List.length = (pySplit P).map List.length ∧
      List.Forall₂ (fun pc cc =>
        (pc ≠ '_' → cc = pc) ∧
        (pc = '_' → isUpperCh cc = true ∧
          cc ∉ extract_attempted_letters P al)) P cand := by
  obtain ⟨segs, hne, hval, rfl⟩ := hP
  intro cand hc
  have hchars : ∀ c ∈ joinSpace segs, isUpperCh c = true ∨ c = '_' ∨ c = ' ' :=
    joinSpace_chars fun seg hs => (hval seg hs).2
  have hid : (joinSpace segs).map upperChar = joinSpace segs :=
    map_upperChar_valid hchars
  have h2 := mem_wof_solutions hc
  rw [hid] at h2
  have hcells := candidate_cells hne hval h2
  constructor
  · exact candidate_shape hchars hcells
  · refine hcells.imp ?_
    rintro pc cc ⟨h1, h2'⟩
    exact ⟨h1, fun h' => ⟨(h2' h').1,
      fun hmem => (h2' h').2 (List.mem_append_right _ hmem)⟩⟩

/-- Witness for C1: pattern `"C_T"` with word corpus `{"CAT"}`. -/
theorem claim_C1_witness :
    ValidPattern ['C', '_', 'T'] ∧
      ∀ cand ∈ (wof_solver ['C', '_', 'T'] none [['C', 'A', 'T']] []).solutions,
        (pySplit cand).map List.length = (pySplit ['C', '_', 'T']).map List.length ∧
        List.Forall₂ (fun pc cc =>
          (pc ≠ '_' → cc = pc) ∧
          (pc = '_' → isUpperCh cc = true ∧
            cc ∉ extract_attempted_letters ['C', '_', 'T'] none))
          ['C', '_', 'T'] cand :=
  ⟨⟨[['C', '_', 'T']], by decide, by decide, rfl⟩,
    claim_C1 ['C', '_', 'T'] none [['C', 'A', 'T']] []
      ⟨[['C', '_', 'T']], by decide, by decide, rfl⟩⟩

/-- C2 (code bug): with the non-empty forbidden set `{'A'}` the compiler
emits the class `[A-Z^A]` for a placeholder; the caret is not leading, so the
class does not exclude the forbidden letters, and the matcher accepts the
forbidden letter `'A'` in the unknown cell, where the contract (and the
function's own docstring) require rejection. -/
theorem claim_C2 :
    rxMatch (pattern_to_regex ['A'] ['_']) ['A'] = true ∧
      ('A' : Char) ∈ (['A'] : List Char) := by decide

/-- C3 counterexample: the malformed pattern character `'.'` is inserted
verbatim into the regex, where it is the wildcard, so it matches the
different character `'X'` rather than only itself. -/
theorem claim_C3_counterexample :
    rxMatch (pattern_to_regex [] ['.']) ['X'] = true ∧ ('X' : Char) ≠ '.' := by
  decide

/-- C3 (amended): a malformed pattern character (anything but `'_'`) that is
not a regex metacharacter is passed through as a literal required character
and the matcher accepts a target at that position exactly when the target has
that same character there; metacharacters such as `'.'` instead keep their
regex meaning. -/
theorem claim_C3 (forb : List Char) (c : Char) (hc1 : c ≠ '_')
    (hc2 : c ∉ regexSpecialChars) (t : Char) :
    itemMatches (charToItem forb c) t = true ↔ t = c := by
  have hdot : c ≠ '.' := fun e => hc2 (by rw [e]; decide)
  rw [charToItem, if_neg hc1, if_neg hdot]
  simp [itemMatches, eq_comm]

/-- Witness for C3 at the malformed non-special character `'!'`. -/
theorem claim_C3_witness :
    ('!' : Char) ≠ '_' ∧ ('!' : Char) ∉ regexSpecialChars ∧
      (itemMatches (charToItem [] '!') '!' = true ↔ ('!' : Char) = '!') :=
  ⟨by decide, by decide, claim_C3 [] '!' (by decide) (by decide) '!'⟩

/-- C4: whenever `solutions` is non-empty, `ranked` is a permutation of
`solutions` (nothing added or removed) and adjacent ranked entries have
non-increasing scores. -/
theorem claim_C4 (pattern : List Char) (al : Option (List Char))
    (words phrases : List (List Char))
    (_hne : (wof_solver pattern al words phrases).solutions ≠ []) :
    List.Perm (wof_solver pattern al words phrases).ranked
        (wof_solver pattern al words phrases).solutions ∧
      (wof_solver pattern al words phrases).ranked.Chain' fun a b =>
        scoreOf phrases b ≤ scoreOf phrases a := by
  rw [wof_ranked_eq]
  exact ⟨rank_solutions_perm _ _, rank_solutions_chain _ _⟩

/-- Witness for C4: pattern `"C_T"` with word corpus `{"CAT", "COT"}`. -/
theorem claim_C4_witness :
    (wof_solver ['C', '_', 'T'] none [['C', 'A', 'T'], ['C', 'O', 'T']] []).solutions
        ≠ [] ∧
      (List.Perm
          (wof_solver ['C', '_', 'T'] none
            [['C', 'A', 'T'], ['C', 'O', 'T']] []).ranked
          (wof_solver ['C', '_', 'T'] none
            [['C', 'A', 'T'], ['C', 'O', 'T']] []).solutions ∧
        (wof_solver ['C', '_', 'T'] none
          [['C', 'A', 'T'], ['C', 'O', 'T']] []).ranked.Chain' fun a b =>
            scoreOf [] b ≤ scoreOf [] a) :=
  ⟨by decide,
    claim_C4 ['C', '_', 'T'] none [['C', 'A', 'T'], ['C', 'O', 'T']] [] (by decide)⟩

/-- C5: `next_letter` — of `recommend_next_letter` in general and of
`wof_solver` — lists exactly the 26 uppercase letters minus the attempted
set, each exactly once (its letters are a permutation of the filtered
alphabet), in non-increasing order of accumulated weight, and attempted
letters never appear. -/
theorem claim_C5 :
    (∀ (sols : List (List Char)) (att : List Char) (w : Option (List Int))
        (ps : List (List Char)),
      List.Perm ((recommend_next_letter sols att w ps).map Prod.fst)
          (asciiUppercase.filter fun ch => !(decide (ch ∈ att))) ∧
        (∀ p ∈ recommend_next_letter sols att w ps, p.1 ∉ att) ∧
        (recommend_next_letter sols att w ps).Chain' fun p q => q.2 ≤ p.2) ∧
      ∀ (pattern : List Char) (al : Option (List Char))
        (words phrases : List (List Char)),
        List.Perm ((wof_solver pattern al words phrases).next_letter.map Prod.fst)
            (asciiUppercase.filter fun ch =>
              !(decide (ch ∈ extract_attempted_letters (pattern.map upperChar) al))) ∧
          (∀ p ∈ (wof_solver pattern al words phrases).next_letter,
            p.1 ∉ extract_attempted_letters (pattern.map upperChar) al) ∧
          ((wof_solver pattern al words phrases).next_letter.Chain' fun p q =>
            q.2 ≤ p.2) := by
  constructor
  · intro sols att w ps
    exact ⟨recommend_keys_perm sols att w ps, recommend_not_attempted sols att w ps,
      recommend_chain sols att w ps⟩
  · intro pattern al words phrases
    obtain ⟨sols, he⟩ := wof_next_letter_eq pattern al words phrases
    rw [he]
    exact ⟨recommend_keys_perm _ _ _ _, recommend_not_attempted _ _ _ _,
      recommend_chain _ _ _ _⟩

lemma etaoin_sum (s : List Char) :
    (s.map fun ch => (etaoin.count ch : Int)).sum =
      ((s.filter fun ch => decide (ch ∈ etaoin)).length : Int) := by
  induction s with
  | nil => rfl
  | cons c cs ih =>
      rw [List.map_cons, List.sum_cons, ih, List.filter_cons]
      by_cases h : c ∈ etaoin
      · rw [etaoin_count, if_pos h]
        simp [h]
        omega
      · rw [etaoin_count, if_neg h]
        simp [h]

/-- C6: the ranker's score of a candidate equals the number of its characters
among the twelve letters of `"ETAOINSHRDLU"` (each such occurrence worth
exactly 1, every other character 0), plus a bonus of 100 exactly when the
candidate is a member of the phrase set. -/
theorem claim_C6 (s : List Char) (phrase_set : List (List Char)) :
    scoreOf phrase_set s =
      ((s.filter fun ch => decide (ch ∈ etaoin)).length : Int) +
        (if s ∈ phrase_set then 100 else 0) := by
  rw [scoreOf, etaoin_sum]
  congr 1
  by_cases h : s ∈ phrase_set
  · rw [if_pos ⟨List.ne_nil_of_mem h, h⟩, if_pos h]
  · rw [if_neg fun h' => h h'.2, if_neg h]

/-- C7: with the default weight 1 per candidate, each occurrence of an
unattempted uppercase letter contributes 1 to that letter's total, plus an
additional 10 when the candidate is an exact phrase-set member — 11 in total
per such occurrence, the bonus replicating rather than replacing the base
credit — and an unattempted letter whose accumulated total is zero is
assigned exactly -1. -/
theorem claim_C7 (sols : List (List Char)) (att : List Char)
    (ps : List (List Char)) (ch : Char) (hch : ch ∈ asciiUppercase)
    (hatt : ch ∉ att) :
    (ch, if letterCredit ps sols ch = 0 then -1 else letterCredit ps sols ch) ∈
        recommend_next_letter sols att none ps ∧
      ∀ v : Int, (ch, v) ∈ recommend_next_letter sols att none ps →
        v = if letterCredit ps sols ch = 0 then -1 else letterCredit ps sols ch :=
  recommend_value hch hatt

/-- Witness for C7: candidate `"CAT"`, itself a phrase-set member, gives the
letter `'A'` credit 11. -/
theorem claim_C7_witness :
    ('A' : Char) ∈ asciiUppercase ∧ ('A' : Char) ∉ ([] : List Char) ∧
      ((('A' : Char),
          if letterCredit [['C', 'A', 'T']] [['C', 'A', 'T']] 'A' = 0 then -1
          else letterCredit [['C', 'A', 'T']] [['C', 'A', 'T']] 'A') ∈
          recommend_next_letter [['C', 'A', 'T']] [] none [['C', 'A', 'T']] ∧
        ∀ v : Int,
          (('A' : Char), v) ∈
            recommend_next_letter [['C', 'A', 'T']] [] none [['C', 'A', 'T']] →
          v = if letterCredit [['C', 'A', 'T']] [['C', 'A', 'T']] 'A' = 0 then -1
            else letterCredit [['C', 'A', 'T']] [['C', 'A', 'T']] 'A') :=
  ⟨by decide, by decide,
    claim_C7 [['C', 'A', 'T']] [] [['C', 'A', 'T']] 'A' (by decide) (by decide)⟩

/-- C8: if any space-separated segment of the (uppercased) pattern matches no
corpus word, the word path (`solve_pattern`) returns no candidates for the
whole pattern, and `solutions` consists of the phrase-path matches only. -/
theorem claim_C8 :
    (∀ (pattern : List Char) (words : List (List Char)) (forb : List Char),
      (∃ part ∈ pySplit pattern, match_words words part forb = []) →
      solve_pattern pattern words forb = []) ∧
      ∀ (pattern : List Char) (al : Option (List Char))
        (words phrases : List (List Char)),
        (∃ part ∈ pySplit (pattern.map upperChar),
          match_words words part
            (forbiddenOf (pattern.map upperChar)
              (extract_attempted_letters (pattern.map upperChar) al)) = []) →
        (wof_solver pattern al words phrases).solutions =
          sortedStrings (phrase_matches (pattern.map upperChar) phrases
            (forbiddenOf (pattern.map upperChar)
              (extract_attempted_letters (pattern.map upperChar) al))) := by
  constructor
  · rintro pattern words forb ⟨part, hp, he⟩
    exact solve_pattern_empty part hp he
  · rintro pattern al words phrases ⟨part, hp, he⟩
    simp only [wof_solver]
    rw [solve_pattern_empty part hp he, List.append_nil]
    split
    · next hemp => exact hemp.symm
    · rfl

/-- Witness for C8: a one-segment pattern with an empty word corpus. -/
theorem claim_C8_witness :
    (∃ part ∈ pySplit ['_'], match_words [] part [] = []) ∧
      solve_pattern ['_'] [] [] = [] ∧
      (∃ part ∈ pySplit (['_'].map upperChar),
        match_words [] part
          (forbiddenOf (['_'].map upperChar)
            (extract_attempted_letters (['_'].map upperChar) none)) = []) ∧
      (wof_solver ['_'] none [] [['A']]).solutions =
        sortedStrings (phrase_matches (['_'].map upperChar) [['A']]
          (forbiddenOf (['_'].map upperChar)
            (extract_attempted_letters (['_'].map upperChar) none))) :=
  ⟨by decide, claim_C8.1 ['_'] [] [] (by decide), by decide,
    claim_C8.2 ['_'] none [] [['A']] (by decide)⟩

/-- C9 counterexample: with both corpora empty, the all-space pattern `" "`
(whose characters are all single spaces) yields the single empty-string
candidate through the empty cartesian product, so `solutions` is not `[]`. -/
theorem claim_C9_counterexample :
    (wof_solver [' '] none [] []).solutions = [[]] ∧
      (wof_solver [' '] none [] []).solutions ≠ [] := by decide

/-- C9 (amended): whenever the generated candidate set is empty the solver
returns `{solutions := [], ranked := [], next_letter := ...}` without error,
the recommender still runs and gives every unattempted letter exactly -1
while excluding attempted letters; and empty corpora do force the empty
candidate set provided the pattern contains at least one non-space
character. -/
theorem claim_C9 :
    (∀ (pattern : List Char) (al : Option (List Char))
        (words phrases : List (List Char)),
      sortedStrings (phrase_matches (pattern.map upperChar) phrases
          (forbiddenOf (pattern.map upperChar)
            (extract_attempted_letters (pattern.map upperChar) al)) ++
        solve_pattern (pattern.map upperChar) words
          (forbiddenOf (pattern.map upperChar)
            (extract_attempted_letters (pattern.map upperChar) al))) = [] →
      wof_solver pattern al words phrases =
        ⟨[], [], recommend_next_letter []
          (extract_attempted_letters (pattern.map upperChar) al) none phrases⟩) ∧
    (∀ (att : List Char) (ps : List (List Char)) (ch : Char),
      ch ∈ asciiUppercase → ch ∉ att →
      (ch, -1) ∈ recommend_next_letter [] att none ps ∧
        ∀ p ∈ recommend_next_letter [] att none ps, p.1 ∉ att) ∧
    ∀ (pattern : List Char) (al : Option (List Char)),
      (∃ c ∈ pattern, c ≠ ' ') →
      sortedStrings (phrase_matches (pattern.map upperChar) []
          (forbiddenOf (pattern.map upperChar)
            (extract_attempted_letters (pattern.map upperChar) al)) ++
        solve_pattern (pattern.map upperChar) []
          (forbiddenOf (pattern.map upperChar)
            (extract_attempted_letters (pattern.map upperChar) al))) = [] := by
  refine ⟨?_, ?_, ?_⟩
  · intro pattern al words phrases h
    simp only [wof_solver]
    split
    · rfl
    · next hne => exact absurd h hne
  · intro att ps ch hch hatt
    constructor
    · have h := (@recommend_value [] att ps ch hch hatt).1
      simpa [letterCredit] using h
    · exact recommend_not_attempted [] att none ps
  · intro pattern al hns
    have hsplit : pySplit (pattern.map upperChar) ≠ [] := by
      apply pySplit_ne_nil
      obtain ⟨c, hc, hcs⟩ := hns
      exact ⟨upperChar c, List.mem_map_of_mem upperChar hc, upperChar_ne_space hcs⟩
    obtain ⟨part, hp⟩ := List.exists_mem_of_ne_nil _ hsplit
    rw [solve_pattern_empty part hp (match_words_nil part _)]
    rfl

/-- Witness for C9: pattern `"_"` with empty corpora, and the degenerate
recommender call with attempted `{'A'}`. -/
theorem claim_C9_witness :
    sortedStrings (phrase_matches (['_'].map upperChar) []
        (forbiddenOf (['_'].map upperChar)
          (extract_attempted_letters (['_'].map upperChar) none)) ++
      solve_pattern (['_'].map upperChar) []
        (forbiddenOf (['_'].map upperChar)
          (extract_attempted_letters (['_'].map upperChar) none))) = [] ∧
    wof_solver ['_'] none [] [] =
      ⟨[], [], recommend_next_letter []
        (extract_attempted_letters (['_'].map upperChar) none) none []⟩ ∧
    ('B' : Char) ∈ asciiUppercase ∧
    ('B' : Char) ∉ (['A'] : List Char) ∧
    ((('B' : Char), -1) ∈ recommend_next_letter [] ['A'] none [] ∧
      ∀ p ∈ recommend_next_letter [] ['A'] none [], p.1 ∉ (['A'] : List Char)) ∧
    (∃ c ∈ (['_'] : List Char), c ≠ ' ') ∧
    sortedStrings (phrase_matches (['_'].map upperChar) []
        (forbiddenOf (['_'].map upperChar)
          (extract_attempted_letters (['_'].map upperChar) none)) ++
      solve_pattern (['_'].map upperChar) []
        (forbiddenOf (['_'].map upperChar)
          (extract_attempted_letters (['_'].map upperChar) none))) = [] :=
  ⟨by decide, claim_C9.1 ['_'] none [] [] (by decide), by decide, by decide,
    claim_C9.2.1 ['A'] [] 'B' (by decide) (by decide), by decide,
    claim_C9.2.2 ['_'] none (by decide)⟩

/-- C10: `solutions` is duplicate-free and sorted in ascending lexicographic
(code point) order, a canonical deterministic order. -/
theorem claim_C10 (pattern : List Char) (al : Option (List Char))
    (words phrases : List (List Char)) :
    (wof_solver pattern al words phrases).solutions.Nodup ∧
      (wof_solver pattern al words phrases).solutions.Chain' fun a b =>
        strLe a b = true := by
  simp only [wof_solver]
  split
  · exact ⟨List.nodup_nil, List.chain'_nil⟩
  · exact ⟨sortedStrings_nodup _, sortedStrings_chain _⟩

end Wof
